import Mathlib

/-!
Verification of the cuediscrim discriminator library.

This file gives a shallow embedding, in Lean 4, of the core of the
cuediscrim Go package (decision-tree discrimination of CUE disjunction
arms), together with theorems settling the frozen claims about it.

The embedding follows the current iteration of the source:

* src/node.go            : decision nodes, Check, Possible, isPerfect
* src/set.go             : the set interface and the package-level
                           intersect and union helpers
* src/valueset.go        : Atom, valueSet and its algebra
* src/main.go (library)  : Discriminate and the generic discriminator
* src/discrim.go (fields): allFields, structFields, labels
* src/disjunctions.go    : Disjunctions / appendDisjunctions
* src/merge.go           : mergeCompatible, compatible, compatibleKinds
* src/wordset.go         : wordSetN / checkWord

Modelling conventions:

* Go machine integers are modelled as Nat or Int; cue.Kind bitmasks are
  Nat with explicit bitwise operations.
* Sets of arm indices (the Set[int] / IntSet interface with its wordSet
  and mapSet implementations) are modelled as Finset Nat; the two Go
  backends are observationally identical apart from wordSet's bound
  checks, which are modelled explicitly where a claim depends on them
  (wordSetN / checkWord).
* Go panics are modelled as Except.error; functions that cannot panic
  are pure.
* Go maps are modelled as association lists with a fixed iteration
  order (Go's map iteration order is unspecified).
* The host schema library (cuelang.org/go/cue) is external to the
  repository; CueValue below models the narrow interface the core
  consumes (kind, incomplete kind, expression decomposition, path
  lookup, field iteration), per section 6 of the specification.
  The model has atoms, non-concrete types, structs, disjunctions and
  matchN calls; it has no concrete list values.
* The recursive discrimination search is embedded with an explicit
  fuel parameter; the Go recursion terminates because the selected set
  shrinks, and all concrete evaluations below use ample fuel.
-/

namespace Cuediscrim

/-! ## Kinds (cue.Kind bitmask model) -/

def bottomKind : Nat := 0
def nullKind : Nat := 1
def boolKind : Nat := 2
def intKind : Nat := 4
def floatKind : Nat := 8
def stringKind : Nat := 16
def bytesKind : Nat := 32
def listKind : Nat := 64
def structKind : Nat := 128

/-- cue.NumberKind is the union of the int and float kinds. -/
def numberKind : Nat := intKind ||| floatKind

/-- cue.TopKind: all kinds. -/
def topKind : Nat := nullKind ||| boolKind ||| intKind ||| floatKind |||
  stringKind ||| bytesKind ||| listKind ||| structKind

/-- The allKinds slice from src/valueset.go (bottom is listed first;
it is used to represent a missing field). -/
def allKinds : List Nat :=
  [bottomKind, nullKind, boolKind, intKind, floatKind, stringKind,
   bytesKind, listKind, structKind]

/-- isAtomKind from src/valueset.go. -/
def isAtomKind (k : Nat) : Bool :=
  k = nullKind || k = boolKind || k = intKind || k = floatKind ||
  k = stringKind || k = bytesKind || k = numberKind

/-! ## Atoms (src/valueset.go)

An Atom wraps a canonical string rendering of a concrete value; the
wrapper struct has a single string field, so it is modelled as the
string itself. -/

abbrev Atom := String

/-- Atom.isValid from src/valueset.go. -/
def atomIsValid (a : Atom) : Bool := a ≠ ""

/-- Atom.kind from src/valueset.go: the kind of an atom is derived
from its first character.  The Go code panics on any other first
character; no atom built by the code (atomForValue, or the literal
atoms null/true/false) ever hits that case, and the model returns 0
(bottom) there so the function is total. -/
def atomKind (a : Atom) : Nat :=
  if a = "" then 0
  else
    let c := a.front
    if c = '"' then stringKind
    else if c = '\'' then bytesKind
    else if '0' ≤ c ∧ c ≤ '9' then numberKind
    else if c = '.' then numberKind
    else if c = 'n' then nullKind
    else if c = 'f' ∨ c = 't' then boolKind
    else 0

/-! ## The value model (host schema library interface, spec section 6) -/

/-- Label types from src/discrim.go (requiredLabel, optionalLabel,
regularLabel are successive bits). -/
def requiredLabel : Nat := 1
def optionalLabel : Nat := 2
def regularLabel : Nat := 4

/-- A model of cue.Value restricted to the interface the core consumes:

* atom s       : a concrete atomic value whose canonical rendering is s
* typ k        : a non-concrete value allowing the kinds in bitmask k
* strukt fs    : a struct with fields (name, labelType, value)
* disj args    : an unresolved disjunction (Expr returns OrOp)
* callMatchN   : a matchN(n, list) call with concrete n and list
* bottom       : the non-existent value (the zero cue.Value)
-/
inductive CueValue where
  | atom (s : String)
  | typ (k : Nat)
  | strukt (fields : List (String × Nat × CueValue))
  | disj (args : List CueValue)
  | callMatchN (n : Int) (list : List CueValue)
  | bottom

/-- The concrete kind of an atom string, derived from its canonical
rendering: a single-bit kind (ints and floats are distinguished by the
presence of a fraction/exponent, as the cue evaluator does). -/
def atomValueKind (s : String) : Nat :=
  if s = "" then bottomKind
  else
    let c := s.front
    if c = '"' then stringKind
    else if c = '\'' then bytesKind
    else if ('0' ≤ c ∧ c ≤ '9') ∨ c = '.' then
      (if s.data.contains '.' ∨ s.data.contains 'e' ∨ s.data.contains 'E' then floatKind
       else intKind)
    else if c = 'n' then nullKind
    else if c = 'f' ∨ c = 't' then boolKind
    else bottomKind

mutual

/-- Value.IncompleteKind: the bitmask of kinds a value allows.
A matchN call value allows every kind (it is an opaque validator). -/
def incompleteKind : CueValue → Nat
  | .atom s => atomValueKind s
  | .typ k => k
  | .strukt _ => structKind
  | .disj args => incompleteKindList args
  | .callMatchN _ _ => topKind
  | .bottom => bottomKind

def incompleteKindList : List CueValue → Nat
  | [] => 0
  | v :: vs => incompleteKind v ||| incompleteKindList vs

end

/-- Value.Kind: the concrete kind, or bottom when the value is not
concrete (types, unresolved disjunctions, matchN calls, the
non-existent value). -/
def cueKind : CueValue → Nat
  | .atom s => atomValueKind s
  | .strukt _ => structKind
  | _ => bottomKind

/-- Value.Exists. -/
def cueExists : CueValue → Bool
  | .bottom => false
  | _ => true

/-- Value.Validate(cue.Concrete(true)) == nil restricted to atoms,
as atomForValue uses it. -/
def validateConcrete : CueValue → Bool
  | .atom _ => true
  | _ => false

/-- The canonical string renderer (fmt.Sprint) on atoms. -/
def canonicalString : CueValue → String
  | .atom s => s
  | _ => ""

/-- atomForValue from src/valueset.go: the invalid atom is the empty
string. -/
def atomForValue (v : CueValue) : Atom :=
  if isAtomKind (incompleteKind v) && validateConcrete v then canonicalString v
  else ""

/-- structFields from src/discrim.go: the fields of v whose label type
matches any bit of labelTypes; non-structs and non-existent values
yield nothing. -/
def structFields (v : CueValue) (labelTypes : Nat) : List (String × Nat × CueValue) :=
  match v with
  | .strukt fs => fs.filter (fun f => (labelTypes &&& f.2.1) ≠ 0)
  | _ => []

/-- One step of lookupPath: descend into a struct field by name. -/
def lookupField (v : CueValue) (name : String) : CueValue :=
  match v with
  | .strukt fs =>
    match fs.find? (fun f => f.1 = name) with
    | some f => f.2.2
    | none => .bottom
  | _ => .bottom

/-- strings.Split(path, ".") at the character level (the standard
splitOn, re-stated over the character list so it evaluates in the
kernel). -/
def splitOnDotAux : List Char → List Char → List String
  | [], acc => [String.mk acc.reverse]
  | c :: rest, acc =>
    if c = '.' then String.mk acc.reverse :: splitOnDotAux rest []
    else splitOnDotAux rest (c :: acc)

def splitOnDot (s : String) : List String :=
  splitOnDotAux s.data []

/-- lookupPath from src/node.go: "." and "" denote the value itself;
otherwise the path is split on dots and each part is looked up as a
string selector. -/
def lookupPath (v : CueValue) (path : String) : CueValue :=
  if path = "." ∨ path = "" then v
  else (splitOnDot path).foldl lookupField v

/-- pathConcat from src/discrim.go. -/
def pathConcat (p1 p2 : String) : String :=
  if p1 = "" ∨ p1 = "." then p2
  else p1 ++ "." ++ p2

mutual

/-- A structural size for CueValue, used only to compute a sufficient
fuel bound for the breadth-first field walker. -/
def csize : CueValue → Nat
  | .atom _ => 1
  | .typ _ => 1
  | .strukt fs => 1 + csizeFields fs
  | .disj args => 1 + csizeList args
  | .callMatchN _ list => 1 + csizeList list
  | .bottom => 1

def csizeFields : List (String × Nat × CueValue) → Nat
  | [] => 0
  | f :: fs => 1 + csize f.2.2 + csizeFields fs

def csizeList : List CueValue → Nat
  | [] => 0
  | v :: vs => 1 + csize v + csizeList vs

end

/-! ## Integer sets (src/set.go helpers)

The Set[int] interface is modelled as Finset Nat. -/

/-- The package-level intersect helper from src/set.go.  Note the
first branch: when s0 is empty the result is s1 itself, not the empty
set. -/
def intersect (s0 s1 : Finset ℕ) : Finset ℕ :=
  if s0.card = 0 then s1
  else if s1.card = 0 then s1
  else s0 ∩ s1

/-- The package-level union helper from src/set.go (the short-circuit
branches return one argument, which is extensionally the union). -/
def unionS (s1 s2 : Finset ℕ) : Finset ℕ :=
  if s1.card = 0 then s2
  else if s2.card = 0 then s1
  else s1 ∪ s2

/-- fold(iterMap(..., Possible), union) over a list of sets: the fold
helper (unnamed helpers file) starts from the first element and
returns the zero value (nil, modelled as the empty set) on an empty
sequence. -/
def foldUnion : List (Finset ℕ) → Finset ℕ
  | [] => ∅
  | x :: xs => xs.foldl unionS x

/-! ## Association-list helpers (Go map model) -/

/-- mapHasKey from the helpers: whether an association list has a key. -/
def hasKey {κ α : Type} [DecidableEq κ] (l : List (κ × α)) (k : κ) : Bool :=
  l.any (fun e => e.1 = k)

/-- delete(m, k) on the association-list model of a Go map. -/
def eraseKey {κ α : Type} [DecidableEq κ] (l : List (κ × α)) (k : κ) : List (κ × α) :=
  l.filter (fun e => e.1 ≠ k)

/-- m[k] lookup with a default. -/
def lookupKey {κ α : Type} [DecidableEq κ] (l : List (κ × α)) (k : κ) (d : α) : α :=
  match l.find? (fun e => e.1 = k) with
  | some e => e.2
  | none => d

/-! ## valueSet (src/valueset.go) -/

/-- valueSet: a normalized pair of a kind bitmask and a set of
constant atoms. -/
structure valueSet where
  types : Nat
  consts : Finset Atom
deriving DecidableEq

/-- valueSet.normalize: drop every const whose kind overlaps types.
(The Go code also replaces an empty map by nil; on Finsets that is
invisible.) -/
def valueSet.normalize (s : valueSet) : valueSet :=
  ⟨s.types, s.consts.filter (fun c => s.types &&& atomKind c = 0)⟩

/-- valueSet.union from src/valueset.go. -/
def valueSet.union (s0 s1 : valueSet) : valueSet :=
  valueSet.normalize ⟨s0.types ||| s1.types, s0.consts ∪ s1.consts⟩

/-- valueSet.intersect from src/valueset.go:
(T0 | C0) & (T1 | C1) = (T0&T1) | (T0&C1) | (T1&C0) | (C0&C1),
then normalized. -/
def valueSet.intersect (s0 s1 : valueSet) : valueSet :=
  valueSet.normalize
    ⟨s0.types &&& s1.types,
     (s1.consts.filter (fun c => s0.types &&& atomKind c ≠ 0)) ∪
     (s0.consts.filter (fun c => s1.types &&& atomKind c ≠ 0)) ∪
     (s0.consts ∩ s1.consts)⟩

/-- valueSet.holdsAtom from src/valueset.go. -/
def valueSet.holdsAtom (s : valueSet) (a : Atom) : Bool :=
  (s.types &&& atomKind a ≠ 0) || a ∈ s.consts

instance : Std.Commutative (α := Nat) (· ||| ·) := ⟨Nat.lor_comm⟩

instance : Std.Associative (α := Nat) (· ||| ·) := ⟨Nat.lor_assoc⟩

/-- valueSet.kinds: all possible kinds, including those implied by the
constant atoms. -/
def valueSet.kinds (s : valueSet) : Nat :=
  s.consts.fold (· ||| ·) s.types atomKind

/-- valueSet.isEmpty. -/
def valueSet.isEmpty (s : valueSet) : Bool :=
  s.types = 0 && s.consts = ∅

mutual

/-- valueSetForValue from src/valueset.go.  A value of exactly the
null kind is kept as a type (so kind discrimination is preferred); a
concrete atom becomes a singleton const set; a disjunction is the
union of its operands; anything else contributes its incomplete
kind.  (The Go code indexes args[0] of an or-expression, which always
has operands; an empty disjunction falls to the default case here.) -/
def valueSetForValue (v : CueValue) : valueSet :=
  if incompleteKind v = nullKind then ⟨nullKind, ∅⟩
  else if atomIsValid (atomForValue v) then ⟨0, {atomForValue v}⟩
  else
    match v with
    | .disj (a :: args) => valueSetUnionList (valueSetForValue a) args
    | _ => ⟨incompleteKind v, ∅⟩

def valueSetUnionList : valueSet → List CueValue → valueSet
  | s, [] => s
  | s, v :: vs => valueSetUnionList (s.union (valueSetForValue v)) vs

end

/-! ## Decision nodes (src/node.go) -/

/-- The DecisionNode sum type.  Go map-valued branch tables are
association lists; ValueSwitchNode.Default may be nil (none). -/
inductive DecisionNode where
  | leaf (arms : Finset ℕ)
  | kindSwitch (path : String) (branches : List (Nat × DecisionNode))
  | fieldAbsence (branches : List (String × Finset ℕ))
  | valueSwitch (path : String) (branches : List (Atom × DecisionNode))
      (dflt : Option DecisionNode)
  | errorNode

/-- FieldAbsenceNode.Possible: the union of all branch groups
(ErrorNode.Possible returns nil, modelled as the empty set). -/
def unionGroups (bs : List (String × Finset ℕ)) : Finset ℕ :=
  bs.foldl (fun acc e => acc ∪ e.2) ∅

/-- The loop body of FieldAbsenceNode.Check: fold the package-level
intersect over the groups of the absent paths, tracking whether any
absent path has been seen yet. -/
def absenceFold (v : CueValue) : List (String × Finset ℕ) → Bool → Finset ℕ →
    Bool × Finset ℕ
  | [], first, s => (first, s)
  | (path, group) :: rest, first, s =>
    if cueExists (lookupPath v path) then absenceFold v rest first s
    else if first then absenceFold v rest false group
    else absenceFold v rest false (intersect s group)

mutual

/-- DecisionNode.Possible from src/node.go.  Note that
ValueSwitchNode.Possible folds over Branches only: the Default
subtree is not included. -/
def possibleN : DecisionNode → Finset ℕ
  | .leaf arms => arms
  | .kindSwitch _ bs => foldUnion (possibleListK bs)
  | .fieldAbsence bs => unionGroups bs
  | .valueSwitch _ bs _ => foldUnion (possibleListA bs)
  | .errorNode => ∅

def possibleListK : List (Nat × DecisionNode) → List (Finset ℕ)
  | [] => []
  | (_, n) :: rest => possibleN n :: possibleListK rest

def possibleListA : List (Atom × DecisionNode) → List (Finset ℕ)
  | [] => []
  | (_, n) :: rest => possibleN n :: possibleListA rest

end

mutual

/-- DecisionNode.Check from src/node.go. -/
def checkN : DecisionNode → CueValue → Finset ℕ
  | .leaf arms, _ => arms
  | .kindSwitch path bs, v => checkKindBranches bs (cueKind (lookupPath v path)) v
  | .fieldAbsence bs, v =>
    let r := absenceFold v bs true ∅
    if r.1 then unionGroups bs else r.2
  | .valueSwitch path bs dflt, v =>
    let f := lookupPath v path
    if cueExists f && isAtomKind (cueKind f) then
      match checkValueBranches bs (atomForValue f) v with
      | some r => r
      | none => checkDefault dflt v
    else checkDefault dflt v
  | .errorNode, _ => ∅

/-- KindSwitchNode.Check's branch lookup: find the branch for the
kind of the value at the path, and delegate to it with the original
value; no branch means the empty set. -/
def checkKindBranches : List (Nat × DecisionNode) → Nat → CueValue → Finset ℕ
  | [], _, _ => ∅
  | (k, n) :: rest, kk, v => if k = kk then checkN n v else checkKindBranches rest kk v

/-- ValueSwitchNode.Check's branch lookup: the result of the branch
for the atom, or none when no branch matches (the caller then falls
through to the default). -/
def checkValueBranches : List (Atom × DecisionNode) → Atom → CueValue →
    Option (Finset ℕ)
  | [], _, _ => none
  | (a, n) :: rest, key, v =>
    if a = key then some (checkN n v) else checkValueBranches rest key v

def checkDefault : Option DecisionNode → CueValue → Finset ℕ
  | none, _ => ∅
  | some n, v => checkN n v

end

/-- The leaf condition of isPerfect when noAtoms is set: every arm in
the set is an atom kind and all the kinds agree. -/
def allSameAtomKind (s : Finset ℕ) (armVals : List CueValue) : Bool :=
  decide (∀ i ∈ s, isAtomKind (cueKind (armVals.getD i .bottom)) = true) &&
  decide ((s.image (fun i => cueKind (armVals.getD i .bottom))).card ≤ 1)

mutual

/-- isPerfect from src/node.go: every reachable leaf selects at most
one arm; with noAtoms set a multi-arm leaf whose arms all have the
same atom kind is still perfect; FieldAbsence nodes are never
perfect. -/
def isPerfect : DecisionNode → Bool → List CueValue → Bool
  | .leaf arms, noAtoms, armVals =>
    if arms.card ≤ 1 then true
    else if !noAtoms then false
    else allSameAtomKind arms armVals
  | .kindSwitch _ bs, noAtoms, armVals => isPerfectListK bs noAtoms armVals
  | .fieldAbsence _, _, _ => false
  | .valueSwitch _ bs dflt, noAtoms, armVals =>
    isPerfectListA bs noAtoms armVals && isPerfectOpt dflt noAtoms armVals
  | .errorNode, _, _ => true

def isPerfectOpt : Option DecisionNode → Bool → List CueValue → Bool
  | none, _, _ => true
  | some n, noAtoms, armVals => isPerfect n noAtoms armVals

def isPerfectListK : List (Nat × DecisionNode) → Bool → List CueValue → Bool
  | [], _, _ => true
  | (_, n) :: rest, noAtoms, armVals =>
    isPerfect n noAtoms armVals && isPerfectListK rest noAtoms armVals

def isPerfectListA : List (Atom × DecisionNode) → Bool → List CueValue → Bool
  | [], _, _ => true
  | (_, n) :: rest, noAtoms, armVals =>
    isPerfect n noAtoms armVals && isPerfectListA rest noAtoms armVals

end

mutual

/-- A corrected variant of Possible that also includes the Default
subtree of every ValueSwitch node (recursively).  This is the
spec-side notion that Check is compared against in the amended
completeness statement. -/
def possibleFullN : DecisionNode → Finset ℕ
  | .leaf arms => arms
  | .kindSwitch _ bs => foldUnion (possibleFullListK bs)
  | .fieldAbsence bs => unionGroups bs
  | .valueSwitch _ bs dflt => foldUnion (possibleFullListA bs) ∪ possibleFullOpt dflt
  | .errorNode => ∅

def possibleFullOpt : Option DecisionNode → Finset ℕ
  | none => ∅
  | some n => possibleFullN n

def possibleFullListK : List (Nat × DecisionNode) → List (Finset ℕ)
  | [] => []
  | (_, n) :: rest => possibleFullN n :: possibleFullListK rest

def possibleFullListA : List (Atom × DecisionNode) → List (Finset ℕ)
  | [] => []
  | (_, n) :: rest => possibleFullN n :: possibleFullListA rest

end

/-! ## The field walker (allFields, src/discrim.go) -/

/-- A queue entry of the breadth-first walk. -/
structure PathValues where
  path : String
  values : List CueValue

/-- Insert one field value into the ordered per-name table: update the
entry for the name if present, otherwise append a fresh entry of the
arm count's length (absent slots are the non-existent value). -/
def insertFieldValue (n i : Nat) (name : String) (v : CueValue)
    (ordered : List (String × List CueValue)) : List (String × List CueValue) :=
  if hasKey ordered name then
    ordered.map (fun e => if e.1 = name then (e.1, e.2.set i v) else e)
  else
    ordered ++ [(name, (List.replicate n CueValue.bottom).set i v)]

/-- The per-entry collection loop of allFields: for every selected arm
index, add every matching field of that arm's value. -/
def collectEntries (values : List CueValue) (selected : Finset ℕ)
    (labelTypes : Nat) : List (String × List CueValue) :=
  values.enum.foldl
    (fun ordered iv =>
      if iv.1 ∈ selected then
        (structFields iv.2 labelTypes).foldl
          (fun o f => insertFieldValue values.length iv.1 f.1 f.2.2 o) ordered
      else ordered)
    []

/-- Whether a field entry has, in some arm, a value that exists and is
not (exactly) a struct.  Such fields are yielded first. -/
def entryHasNonStruct (e : String × List CueValue) : Bool :=
  e.2.any (fun v => cueExists v && incompleteKind v ≠ structKind)

/-- The block of fields yielded while processing a single dequeued
parent, and the children enqueued for recursion: fields with a
non-struct value first (in collection order), then the remaining
fields, all of which are enqueued. -/
def fieldBlock (path : String) (values : List CueValue) (selected : Finset ℕ)
    (labelTypes : Nat) : List (String × List CueValue) × List PathValues :=
  let entries := collectEntries values selected labelTypes
  let produced := (entries.filter entryHasNonStruct).map
    (fun e => (pathConcat path e.1, e.2))
  let rest := (entries.filter (fun e => !entryHasNonStruct e)).map
    (fun e => (pathConcat path e.1, e.2))
  (produced ++ rest, rest.map (fun e => ⟨e.1, e.2⟩))

/-- The breadth-first queue loop of allFields, with explicit fuel. -/
def allFieldsGo (selected : Finset ℕ) (labelTypes : Nat) :
    Nat → List PathValues → List (String × List CueValue)
  | 0, _ => []
  | _ + 1, [] => []
  | fuel + 1, e :: q =>
    let b := fieldBlock e.path e.values selected labelTypes
    b.1 ++ allFieldsGo selected labelTypes fuel (q ++ b.2)

/-- A fuel bound that dominates the number of queue pops: every
enqueued entry owns at least one real field occurrence of the original
values, so one more than the total structural size suffices. -/
def sizeFuel (values : List CueValue) : Nat :=
  1 + (values.map csize).sum

/-- allFields from src/discrim.go: breadth-first iteration over the
fields of the selected arms, starting from the root pseudo-path. -/
def allFields (values : List CueValue) (selected : Finset ℕ)
    (labelTypes : Nat) : List (String × List CueValue) :=
  allFieldsGo selected labelTypes (sizeFuel values) [⟨".", values⟩]

/-! ## The discriminator (src/main.go, library part) -/

def emptyVS : valueSet := ⟨0, ∅⟩

/-- The loop of fullyDiscriminated: found accumulates the selected
members seen so far; a group with more than one selected member fails
immediately. -/
def fullyDiscriminatedGo (selected : Finset ℕ) :
    List (Finset ℕ) → Finset ℕ → Bool
  | [], found => found.card = selected.card
  | g :: gs, found =>
    if 1 < (g ∩ selected).card then false
    else fullyDiscriminatedGo selected gs (found ∪ (g ∩ selected))

/-- fullyDiscriminated from src/main.go: each group selects at most
one member of selected, and every member of selected appears in some
group. -/
def fullyDiscriminated (groups : List (Finset ℕ)) (selected : Finset ℕ) : Bool :=
  fullyDiscriminatedGo selected groups ∅

/-- kindDiscrim from src/main.go: assign every selected arm to each
kind of allKinds that intersects armKind of its value set.  Only
nonempty groups are present (the Go map gets a key only when an arm is
added); the association list fixes the iteration order to allKinds
order. -/
def kindDiscrim (armsVS : List valueSet) (selected : Finset ℕ)
    (armKind : valueSet → Nat) : List (Nat × Finset ℕ) :=
  allKinds.filterMap (fun k =>
    let s := (Finset.range armsVS.length).filter
      (fun i => i ∈ selected ∧ (armKind (armsVS.getD i emptyVS) &&& k) ≠ 0)
    if s = ∅ then none else some (k, s))

/-- hasConsts from src/main.go. -/
def hasConsts (armsVS : List valueSet) : Bool :=
  armsVS.any (fun a => a.consts.card ≠ 0)

/-- Lexicographic comparison of character lists (the standard string
order, restated so that it evaluates inside the kernel). -/
def charListLeB : List Char → List Char → Bool
  | [], _ => true
  | _ :: _, [] => false
  | a :: as, b :: bs =>
    if a < b then true
    else if b < a then false
    else charListLeB as bs

def strLe (a b : String) : Prop := charListLeB a.data b.data = true

instance : DecidableRel strLe := fun a b => by
  unfold strLe; infer_instance

theorem charListLeB_total : ∀ as bs, charListLeB as bs = true ∨ charListLeB bs as = true := by
  intro as
  induction as with
  | nil => intro bs; left; rfl
  | cons a as ih =>
    intro bs
    cases bs with
    | nil => right; rfl
    | cons b bs =>
      by_cases hab : a < b
      · left; simp [charListLeB, hab]
      · by_cases hba : b < a
        · right; simp [charListLeB, hba]
        · have : ¬ a < b := hab
          rcases ih bs with h | h
          · left; simp [charListLeB, hab, hba, h]
          · right; simp [charListLeB, hab, hba, h]

theorem charListLeB_trans : ∀ as bs cs, charListLeB as bs = true →
    charListLeB bs cs = true → charListLeB as cs = true := by
  intro as
  induction as with
  | nil => intro bs cs _ _; rfl
  | cons a as ih =>
    intro bs cs h1 h2
    cases bs with
    | nil => simp [charListLeB] at h1
    | cons b bs =>
      cases cs with
      | nil => simp [charListLeB] at h2
      | cons c cs =>
        simp only [charListLeB] at h1 h2 ⊢
        by_cases hab : a < b
        · by_cases hbc : b < c
          · have hac : a < c := lt_trans hab hbc
            simp [hac]
          · by_cases hcb : c < b
            · simp [hab, hbc, hcb] at h2
            · have hbc' : b = c := le_antisymm (not_lt.mp hcb) (not_lt.mp hbc)
              subst hbc'
              simp [hab]
        · by_cases hba : b < a
          · simp [hab, hba] at h1
          · have hab' : a = b := le_antisymm (not_lt.mp hba) (not_lt.mp hab)
            subst hab'
            simp only [lt_irrefl, if_false, if_neg] at h1
            by_cases hac : a < c
            · simp [hac]
            · by_cases hca : c < a
              · simp [hac, hca] at h2
              · simp only [hac, hca, if_false] at h2 ⊢
                exact ih bs cs h1 h2

theorem charListLeB_antisymm : ∀ as bs, charListLeB as bs = true →
    charListLeB bs as = true → as = bs := by
  intro as
  induction as with
  | nil =>
    intro bs _ h2
    cases bs with
    | nil => rfl
    | cons b bs => simp [charListLeB] at h2
  | cons a as ih =>
    intro bs h1 h2
    cases bs with
    | nil => simp [charListLeB] at h1
    | cons b bs =>
      simp only [charListLeB] at h1 h2
      by_cases hab : a < b
      · have : ¬ b < a := lt_asymm hab
        simp [hab, this] at h2
      · by_cases hba : b < a
        · simp [hab, hba] at h1
        · have hab' : a = b := le_antisymm (not_lt.mp hba) (not_lt.mp hab)
          subst hab'
          simp [hab, hba] at h1 h2
          rw [ih bs h1 h2]

instance : IsTotal String strLe :=
  ⟨fun a b => charListLeB_total a.data b.data⟩

instance : IsTrans String strLe :=
  ⟨fun a b c => charListLeB_trans a.data b.data c.data⟩

instance : IsAntisymm String strLe :=
  ⟨fun a b h1 h2 => by
    cases a; cases b
    exact congrArg String.mk (charListLeB_antisymm _ _ h1 h2)⟩

/-- The elements of a finite set of strings in sorted order.  This is
Finset.sort, restated with insertion sort over a kernel-evaluable
string order. -/
def finsetSort (s : Finset String) : List String :=
  Quotient.liftOn s.val (fun l => l.insertionSort strLe)
    (fun l1 l2 h =>
      List.eq_of_perm_of_sorted
        (((List.perm_insertionSort _ l1).trans h).trans
          (List.perm_insertionSort _ l2).symm)
        (List.sorted_insertionSort _ l1)
        (List.sorted_insertionSort _ l2))

/-- valueDiscrim from src/main.go: for every const atom of a selected
arm, the arms that state that atom plus the arms whose types allow its
kind (unselected arms have the zero value set, so they contribute
nothing, as in the source).  Keys are iterated in sorted order (the Go
map order is unspecified). -/
def valueDiscrim (armsVS : List valueSet) (selected : Finset ℕ) :
    List (Atom × Finset ℕ) :=
  let keys : Finset Atom := (Finset.range armsVS.length).biUnion
    (fun i => if i ∈ selected then (armsVS.getD i emptyVS).consts else ∅)
  (finsetSort keys).map (fun c =>
    (c, (Finset.range armsVS.length).filter (fun i =>
      (i ∈ selected ∧ c ∈ (armsVS.getD i emptyVS).consts) ∨
      ((armsVS.getD i emptyVS).types &&& atomKind c) ≠ 0)))

/-- The null-atom removal of discriminators: when the types-only kind
discriminator has a null branch, the null atom is deleted from the
value discriminator. -/
def postByValue (byValue0 : List (Atom × Finset ℕ)) (byKind1 : List (Nat × Finset ℕ)) :
    List (Atom × Finset ℕ) :=
  if hasKey byKind1 nullKind then eraseKey byValue0 "null" else byValue0

/-- The bool-branch removal of discriminators: when the (post-null)
value discriminator contains both true and false, the bool branch is
deleted from the kind discriminator. -/
def postByKind (byValue0 : List (Atom × Finset ℕ)) (byKind1 : List (Nat × Finset ℕ)) :
    List (Nat × Finset ℕ) :=
  if hasKey (postByValue byValue0 byKind1) "true" &&
     hasKey (postByValue byValue0 byKind1) "false" then eraseKey byKind1 boolKind
  else byKind1

/-- discriminators from src/main.go: first try kinds (including
atom-implied kinds); if that fully discriminates or there are no
consts, return it with no value discriminator.  Otherwise compute the
value discriminator and a types-only kind discriminator and apply the
two removals (postByValue, postByKind). -/
def discriminators (arms0 : List CueValue) (selected needDiscrim : Finset ℕ) :
    List (Atom × Finset ℕ) × List (Nat × Finset ℕ) × Bool :=
  let armsVS := (List.range arms0.length).map (fun i =>
    if i ∈ selected then valueSetForValue (arms0.getD i .bottom) else emptyVS)
  let byKind := kindDiscrim armsVS selected valueSet.kinds
  let full := fullyDiscriminated (byKind.map (fun e => e.2)) needDiscrim
  if !hasConsts armsVS || full then ([], byKind, full)
  else
    let byValue0 := valueDiscrim armsVS selected
    let byKind1 := kindDiscrim armsVS selected (fun v => v.types)
    (postByValue byValue0 byKind1, postByKind byValue0 byKind1,
     fullyDiscriminated ((postByValue byValue0 byKind1).map (fun e => e.2) ++
       (postByKind byValue0 byKind1).map (fun e => e.2)) needDiscrim)

/-- existenceDiscriminator from src/main.go: the selected arms whose
value at the field does not exist. -/
def existenceDiscriminator (arms : List CueValue) (selected : Finset ℕ) : Finset ℕ :=
  (Finset.range arms.length).filter
    (fun i => i ∈ selected ∧ ¬cueExists (arms.getD i .bottom))

/-- The revSet wrapper: map a set of merged indices through the
reverse mapping when compatibility merging produced one. -/
def revApply (rev : Option (Nat → Finset ℕ)) (s : Finset ℕ) : Finset ℕ :=
  match rev with
  | none => s
  | some r => s.biUnion r

/-- discriminator.newLeaf from src/main.go. -/
def newLeaf (rev : Option (Nat → Finset ℕ)) (s : Finset ℕ) : DecisionNode :=
  .leaf (revApply rev s)

/-- The field-absence fallback loop of discriminate: keep the paths
whose absence deselects exactly one arm and removes something new,
intersecting them into possible, and stop as soon as possible is
empty. -/
def absenceLoop (selected : Finset ℕ) :
    List (String × List CueValue) → Finset ℕ → List (String × Finset ℕ) →
    Finset ℕ × List (String × Finset ℕ)
  | [], possible, branches => (possible, branches)
  | (path, values) :: rest, possible, branches =>
    let group := existenceDiscriminator values selected
    if group.card ≠ selected.card - 1 then absenceLoop selected rest possible branches
    else if possible ⊆ group then
      -- nothing would be newly removed
      absenceLoop selected rest possible branches
    else
      let possible1 := possible ∩ group
      let branches1 := branches ++ [(path, group)]
      if possible1.card = 0 then (possible1, branches1)
      else absenceLoop selected rest possible1 branches1

/-- The per-kind branch of buildDecisionFromDescriminators: a
multi-arm struct group recurses, a group equal to selected
terminates in a leaf, anything else recurses. -/
def kindBranch (rev : Option (Nat → Finset ℕ))
    (recur : List CueValue → Finset ℕ → DecisionNode)
    (values : List CueValue) (selected : Finset ℕ) (e : Nat × Finset ℕ) :
    DecisionNode :=
  if e.1 = structKind ∧ 1 < e.2.card then recur values e.2
  else if e.2 = selected then newLeaf rev selected
  else recur values e.2

/-- The per-atom branch of buildDecisionFromDescriminators. -/
def valueBranch (rev : Option (Nat → Finset ℕ))
    (recur : List CueValue → Finset ℕ → DecisionNode)
    (values : List CueValue) (selected : Finset ℕ) (e : Atom × Finset ℕ) :
    DecisionNode :=
  if e.2 = selected then newLeaf rev selected
  else recur values e.2

/-- The kind-switch part of buildDecisionFromDescriminators: an empty
kind discriminator becomes the error node. -/
def buildKindSwitch (rev : Option (Nat → Finset ℕ))
    (recur : List CueValue → Finset ℕ → DecisionNode)
    (path : String) (values : List CueValue) (selected : Finset ℕ)
    (byKind : List (Nat × Finset ℕ)) : DecisionNode :=
  if byKind.isEmpty then .errorNode
  else .kindSwitch path (byKind.map (fun e => (e.1, kindBranch rev recur values selected e)))

/-- discriminator.buildDecisionFromDescriminators from src/main.go.
The recursive call back into discriminate is passed explicitly (as
recur) so the mutual pair is structurally recursive on the fuel. -/
def buildDecision (rev : Option (Nat → Finset ℕ))
    (recur : List CueValue → Finset ℕ → DecisionNode)
    (path : String) (values : List CueValue) (selected : Finset ℕ)
    (byValue : List (Atom × Finset ℕ)) (byKind : List (Nat × Finset ℕ)) :
    DecisionNode :=
  if byValue.isEmpty then buildKindSwitch rev recur path values selected byKind
  else
    .valueSwitch path
      (byValue.map (fun e => (e.1, valueBranch rev recur values selected e)))
      (some (buildKindSwitch rev recur path values selected byKind))

/-- discriminator.discriminate from src/main.go, with explicit fuel
(the Go recursion terminates as the selected set shrinks; all concrete
runs below use ample fuel, and exhausted fuel yields the error node). -/
def discriminate (rev : Option (Nat → Finset ℕ)) :
    Nat → List CueValue → Finset ℕ → DecisionNode
  | 0, _, _ => .errorNode
  | fuel + 1, arms, selected =>
    if selected.card ≤ 1 then newLeaf rev selected
    else
      let nd0 := (Finset.range arms.length).filter
        (fun i => incompleteKind (arms.getD i .bottom) &&& structKind = 0)
      let needDiscrim := if nd0 = ∅ then selected else nd0
      let d0 := discriminators arms selected needDiscrim
      if d0.2.2 then
        buildDecision rev (fun a s => discriminate rev fuel a s) "." arms selected d0.1 d0.2.1
      else
        let flds := allFields arms selected requiredLabel
        match flds.find? (fun pv => (discriminators pv.2 selected selected).2.2) with
        | some pv =>
          let d1 := discriminators pv.2 selected selected
          buildDecision rev (fun a s => discriminate rev fuel a s) pv.1 pv.2 selected d1.1 d1.2.1
        | none =>
          let ab := absenceLoop selected flds selected []
          if 0 < ab.1.card then newLeaf rev selected
          else .fieldAbsence ab.2

/-! ## Top-level Discriminate (src/main.go) and wordSetN (src/wordset.go) -/

/-- The panic raised by checkWord in src/wordset.go. -/
def wordSetPanicMsg : String := "panic: cannot store out-of-bounds value in word set"

/-- checkWord from src/wordset.go: panics on indices outside a 64-bit
word. -/
def checkWord (x : Int) : Except String Unit :=
  if x < 0 ∨ 64 ≤ x then .error wordSetPanicMsg else pure ()

/-- wordSetN from src/wordset.go: the set of the first n indices; the
bound check is on n-1 in Go int arithmetic, so n = 0 checks -1 and
panics. -/
def wordSetN (n : Nat) : Except String (Finset ℕ) := do
  checkWord ((n : Int) - 1)
  pure (Finset.range n)

/-- The options record (the debug logger only produces output and is
not modelled). -/
structure DOptions where
  mergeCompatible : Bool

/-! ## Disjunctions (src/disjunctions.go) -/

mutual

/-- appendDisjunctions from src/disjunctions.go: or-operands are split
recursively; a matchN(n, list) call is split into its list elements
unless n is 0 or the list length (none-of / all-of); anything else is
one arm.  In the model the call arguments are always concrete, so the
Int64 conversions cannot fail. -/
def appendDisjunctions : List CueValue → CueValue → List CueValue
  | dst, .disj args => appendDisjList dst args
  | dst, .callMatchN n list =>
    if n = 0 ∨ n = (list.length : Int) then dst ++ [.callMatchN n list]
    else appendDisjList dst list
  | dst, v => dst ++ [v]

def appendDisjList : List CueValue → List CueValue → List CueValue
  | dst, [] => dst
  | dst, v :: vs => appendDisjList (appendDisjunctions dst v) vs

end

/-- Disjunctions from src/disjunctions.go. -/
def Disjunctions (v : CueValue) : List CueValue :=
  appendDisjunctions [] v

/-! ## Compatibility merging (src/merge.go) -/

/-- Modelled from the spec: allAtomsKind is called by mergeCompatible
(src/merge.go) but its definition is not among the provided source
files.  Per spec section 4.5 the merger groups atom-kind arms, so
allAtomsKind reports that a kind mask is nonzero and contains only
atom kind bits (null, bool, int, float, string, bytes). -/
def allAtomsKind (k : Nat) : Bool :=
  k ≠ 0 && (k &&& (nullKind ||| boolKind ||| intKind ||| floatKind |||
    stringKind ||| bytesKind)) = k

/-- compatibleKinds from src/merge.go: all existing values have the
same incomplete kind (the first existing value fixes it). -/
def compatibleKinds (arms : List CueValue) : Bool :=
  if arms.length ≤ 1 then true
  else
    match (arms.filter cueExists).map incompleteKind with
    | [] => true
    | k :: rest => rest.all (fun k1 => k1 = k)

/-- The panic raised through listTypes/listTypeForValue in
src/merge.go when a list-kind value cannot be decomposed. -/
def listTypePanicMsg : String := "panic: unexpected error getting list type"

/-- compatible from src/merge.go.  For struct arms, every field that
appears across the arms must have compatible kinds.  For list arms the
Go code decomposes the values with listTypes, which panics when
listTypeForValue fails; the model contains no concrete list values
(see CueValue), so that decomposition always fails, exactly as the Go
code would on such values. -/
def compatible (arms : List CueValue) : Except String Bool :=
  if arms.length ≤ 1 then pure true
  else if !compatibleKinds arms then pure false
  else if incompleteKind (arms.headD .bottom) = structKind then
    pure ((allFields arms (Finset.range arms.length)
      (requiredLabel ||| optionalLabel ||| regularLabel)).all
      (fun pv => compatibleKinds pv.2))
  else if incompleteKind (arms.headD .bottom) = listKind then
    .error listTypePanicMsg
  else pure true

/-- The final build loop of mergeCompatible: walk the arms in order;
an arm is appended when its kind group has at most one member or its
kind has not been handled yet; an arm with no group stands for itself. -/
def mergeBuild (arms : List CueValue) (byKind : Nat → Finset ℕ) :
    List CueValue → Nat → Finset ℕ → List CueValue → List (Finset ℕ) →
    List CueValue × List (Finset ℕ)
  | [], _, _, arms1, revMap => (arms1, revMap)
  | arm :: rest, i, done, arms1, revMap =>
    let k := incompleteKind arm
    let fromSet := byKind k
    if fromSet.card ≤ 1 ∨ k ∉ done then
      let fromSet1 := if fromSet.card = 0 then {i} else fromSet
      mergeBuild arms byKind rest (i + 1) (insert k done)
        (arms1 ++ [arm]) (revMap ++ [fromSet1])
    else
      mergeBuild arms byKind rest (i + 1) done arms1 revMap

/-- mergeCompatible from src/merge.go.  Atom-kind arms are grouped by
their exact incomplete kind; struct and list arms are collected and,
when all mutually compatible, grouped by the set of arms whose
concrete Kind equals that kind; the build loop then emits one
representative per group.  rev maps an output index to its group
(Go returns nil, the empty set, out of range). -/
def mergeCompatible (arms : List CueValue) :
    Except String (List CueValue × (Nat → Finset ℕ)) := do
  let byKind0 : Nat → Finset ℕ := fun k =>
    if allAtomsKind k then
      (Finset.range arms.length).filter
        (fun i => incompleteKind (arms.getD i .bottom) = k)
    else ∅
  let compositesS := arms.filter (fun a => incompleteKind a = structKind)
  let compositesL := arms.filter (fun a => incompleteKind a = listKind)
  let okS ← if compositesS.isEmpty then pure false else compatible compositesS
  let okL ← if compositesL.isEmpty then pure false else compatible compositesL
  let byKind : Nat → Finset ℕ := fun k =>
    if k = structKind ∧ okS then
      (Finset.range arms.length).filter
        (fun i => cueKind (arms.getD i .bottom) = structKind)
    else if k = listKind ∧ okL then
      (Finset.range arms.length).filter
        (fun i => cueKind (arms.getD i .bottom) = listKind)
    else byKind0 k
  let b := mergeBuild arms byKind arms 0 ∅ [] []
  pure (b.1, fun i => (b.2.getD i ∅))

/-- Discriminate from src/main.go: optionally merge compatible arms,
pick the word-set backend when there are at most 64 arms (building the
initial index set with wordSetN, whose bound check panics for zero
arms), run the recursive search, and report perfection against the
original arms. -/
def Discriminate (fuel : Nat) (arms0 : List CueValue) (opts : DOptions) :
    Except String (DecisionNode × Bool) := do
  let origArms := arms0
  let (arms, rev) ←
    if opts.mergeCompatible then do
      let m ← mergeCompatible arms0
      pure (m.1, some m.2)
    else pure (arms0, (none : Option (Nat → Finset ℕ)))
  if arms.length ≤ 64 then do
    let s ← wordSetN arms.length
    let n := discriminate rev fuel arms s
    pure (n, isPerfect n opts.mergeCompatible origArms)
  else
    let n := discriminate rev fuel arms (Finset.range arms.length)
    pure (n, isPerfect n opts.mergeCompatible origArms)

/-! ## Concrete inputs used by witnesses and counterexamples -/

/-- The arms of spec scenario 3: int, bool, null or bytes, two string
constants. -/
def arms3 : List CueValue :=
  [.typ intKind, .typ boolKind, .disj [.typ nullKind, .typ bytesKind],
   .atom "\"foo\"", .atom "\"bar\""]

/-- The arms of spec scenario 1: string, int. -/
def armsKinds : List CueValue := [.typ stringKind, .typ intKind]

/-- Two string constants, used with compatibility merging. -/
def armsAtoms : List CueValue := [.atom "\"a\"", .atom "\"b\""]

/-- A struct-kind arm that is not a concrete struct (a disjunction of
two structs) next to a plain struct arm: the failing input of the
merger round-trip. -/
def armsMerge : List CueValue :=
  [.disj [.strukt [("a", regularLabel, .atom "1")],
          .strukt [("b", regularLabel, .atom "2")]],
   .strukt [("c", requiredLabel, .typ intKind)]]

/-! ## Basic set lemmas -/

theorem unionS_eq (a b : Finset ℕ) : unionS a b = a ∪ b := by
  unfold unionS
  split_ifs with h1 h2
  · rw [Finset.card_eq_zero] at h1; subst h1; simp
  · rw [Finset.card_eq_zero] at h2; subst h2; simp
  · rfl

theorem mem_foldl_unionS {x : ℕ} :
    ∀ (l : List (Finset ℕ)) (init : Finset ℕ),
      x ∈ l.foldl unionS init ↔ x ∈ init ∨ ∃ s ∈ l, x ∈ s := by
  intro l
  induction l with
  | nil => simp
  | cons a l ih =>
    intro init
    rw [List.foldl_cons, ih, unionS_eq]
    simp only [Finset.mem_union, List.mem_cons]
    constructor
    · rintro ((h | h) | ⟨s, hs, hx⟩)
      · exact Or.inl h
      · exact Or.inr ⟨a, Or.inl rfl, h⟩
      · exact Or.inr ⟨s, Or.inr hs, hx⟩
    · rintro (h | ⟨s, (rfl | hs), hx⟩)
      · exact Or.inl (Or.inl h)
      · exact Or.inl (Or.inr hx)
      · exact Or.inr ⟨s, hs, hx⟩

theorem mem_foldUnion {x : ℕ} {l : List (Finset ℕ)} :
    x ∈ foldUnion l ↔ ∃ s ∈ l, x ∈ s := by
  cases l with
  | nil => simp [foldUnion]
  | cons a l =>
    rw [foldUnion, mem_foldl_unionS]
    simp only [List.mem_cons]
    constructor
    · rintro (h | ⟨s, hs, hx⟩)
      · exact ⟨a, Or.inl rfl, h⟩
      · exact ⟨s, Or.inr hs, hx⟩
    · rintro ⟨s, (rfl | hs), hx⟩
      · exact Or.inl hx
      · exact Or.inr ⟨s, hs, hx⟩

theorem mem_unionGroups {x : ℕ} :
    ∀ {bs : List (String × Finset ℕ)},
      x ∈ unionGroups bs ↔ ∃ e ∈ bs, x ∈ e.2 := by
  have gen : ∀ (bs : List (String × Finset ℕ)) (init : Finset ℕ),
      x ∈ bs.foldl (fun acc e => acc ∪ e.2) init ↔ x ∈ init ∨ ∃ e ∈ bs, x ∈ e.2 := by
    intro bs
    induction bs with
    | nil => simp
    | cons a bs ih =>
      intro init
      rw [List.foldl_cons, ih]
      simp only [Finset.mem_union, List.mem_cons]
      constructor
      · rintro ((h | h) | ⟨e, he, hx⟩)
        · exact Or.inl h
        · exact Or.inr ⟨a, Or.inl rfl, h⟩
        · exact Or.inr ⟨e, Or.inr he, hx⟩
      · rintro (h | ⟨e, (rfl | he), hx⟩)
        · exact Or.inl (Or.inl h)
        · exact Or.inl (Or.inr hx)
        · exact Or.inr ⟨e, he, hx⟩
  intro bs
  rw [unionGroups, gen]
  simp

theorem intersect_subset_union (a b : Finset ℕ) : intersect a b ⊆ a ∪ b := by
  unfold intersect
  split_ifs
  · exact Finset.subset_union_right
  · exact Finset.subset_union_right
  · exact Finset.inter_subset_left.trans Finset.subset_union_left

/-! ## Claim C10: the intersect helper on an empty first argument -/

/-- C10: for the package-level intersect helper of src/set.go, a first
argument of length zero makes the result the second argument itself,
so intersecting the empty set with a non-empty set yields the
non-empty second argument rather than the empty set.  (This helper is
the accumulator of FieldAbsenceNode.Check: see checkN and
absenceFold.) -/
theorem c10_intersect_empty_first (s0 s1 : Finset ℕ) (h : s0.card = 0) :
    intersect s0 s1 = s1 := by
  unfold intersect
  simp [h]

theorem c10_intersect_empty_first_witness :
    (∅ : Finset ℕ).card = 0 ∧ intersect ∅ {3} = ({3} : Finset ℕ) :=
  ⟨rfl, c10_intersect_empty_first ∅ {3} rfl⟩

/-! ## Claim C4: totality of the core operations -/

/-- C4 (code bug): Discriminate on an empty arms slice panics instead
of returning normally.  The slice length 0 is at most 64, so the
word-set backend is chosen and wordSetN(0) calls checkWord(-1), which
panics; the modelled evaluation returns that panic for every fuel and
option value. -/
theorem c4_discriminate_empty_arms_panics :
    ∀ (fuel : Nat) (opts : DOptions),
      Discriminate fuel [] opts = .error wordSetPanicMsg := by
  intro fuel opts
  rcases opts with ⟨mc⟩
  cases mc <;> rfl

/-! ## Claim C7: the merger round-trip -/

/-- C7 (code bug): on armsMerge (a struct-kind arm that is not a
concrete struct, next to a plain struct arm) mergeCompatible returns
two output arms whose reverse groups are both the singleton of index
1: their union misses index 0 and they are not disjoint, so the
round-trip property fails.  The classification loop uses
IncompleteKind while the group construction uses Kind, and the build
loop re-emits singleton groups. -/
theorem c7_merge_round_trip_fails :
    ((mergeCompatible armsMerge).toOption.map
      (fun p => (p.2 0, p.2 1, p.1.length))) = some ({1}, {1}, 2) := by
  decide

/-! ## Claim C2: FieldAbsenceNode.Check -/

/-- The groups of the branch paths that are absent in v, in branch
order. -/
def absentGroups (v : CueValue) (bs : List (String × Finset ℕ)) : List (Finset ℕ) :=
  (bs.filter (fun e => !cueExists (lookupPath v e.1))).map (fun e => e.2)

/-- The set intersection of a nonempty list of groups, as the claim
reads it (the spec words: Check intersects the groups for all paths
currently absent). -/
def specAbsentIntersection : List (Finset ℕ) → Finset ℕ
  | [] => ∅
  | g :: gs => gs.foldl (· ∩ ·) g

/-- The claim's reading of FieldAbsenceNode.Check: the intersection of
the absent branches' groups, or Possible() when no branch path is
absent. -/
def specFieldAbsenceCheck (bs : List (String × Finset ℕ)) (v : CueValue) : Finset ℕ :=
  if absentGroups v bs = [] then unionGroups bs
  else specAbsentIntersection (absentGroups v bs)

/-- The branch table of the C2 counterexample. -/
def branchesC2 : List (String × Finset ℕ) := [("a", {0}), ("b", {1}), ("c", {0})]

theorem absenceFold_false_eq (v : CueValue) :
    ∀ (bs : List (String × Finset ℕ)) (s : Finset ℕ),
      absenceFold v bs false s = (false, (absentGroups v bs).foldl intersect s) := by
  intro bs
  induction bs with
  | nil => intro s; simp [absenceFold, absentGroups]
  | cons e bs ih =>
    intro s
    rcases e with ⟨path, group⟩
    by_cases hex : cueExists (lookupPath v path)
    · simp [absenceFold, hex, ih, absentGroups]
    · simp [absenceFold, hex, ih, absentGroups]

theorem absenceFold_true_eq (v : CueValue) :
    ∀ (bs : List (String × Finset ℕ)),
      absenceFold v bs true ∅ =
        (match absentGroups v bs with
         | [] => (true, (∅ : Finset ℕ))
         | g :: gs => (false, gs.foldl intersect g)) := by
  intro bs
  induction bs with
  | nil => simp [absenceFold, absentGroups]
  | cons e bs ih =>
    rcases e with ⟨path, group⟩
    by_cases hex : cueExists (lookupPath v path)
    · simpa [absenceFold, hex, absentGroups] using ih
    · simp [absenceFold, hex, absentGroups, absenceFold_false_eq]

theorem foldl_inter_subset_init :
    ∀ (gs : List (Finset ℕ)) (g : Finset ℕ), gs.foldl (· ∩ ·) g ⊆ g := by
  intro gs
  induction gs with
  | nil => intro g; simp
  | cons g1 gs ih =>
    intro g
    exact (ih (g ∩ g1)).trans Finset.inter_subset_left

theorem foldl_intersect_eq_inter :
    ∀ (gs : List (Finset ℕ)) (g : Finset ℕ),
      gs.foldl (· ∩ ·) g ≠ ∅ → gs.foldl intersect g = gs.foldl (· ∩ ·) g := by
  intro gs
  induction gs with
  | nil => intro g _; rfl
  | cons g1 gs ih =>
    intro g hne
    have hsub : gs.foldl (· ∩ ·) (g ∩ g1) ⊆ g ∩ g1 := foldl_inter_subset_init gs (g ∩ g1)
    have hinter : g ∩ g1 ≠ ∅ := by
      intro h0
      exact hne (by simpa [List.foldl_cons, h0] using Finset.subset_empty.mp (h0 ▸ hsub))
    have hg : g.card ≠ 0 := by
      intro h0
      rw [Finset.card_eq_zero] at h0
      exact hinter (by simp [h0])
    have hg1 : g1.card ≠ 0 := by
      intro h0
      rw [Finset.card_eq_zero] at h0
      exact hinter (by simp [h0])
    have : intersect g g1 = g ∩ g1 := by
      unfold intersect
      simp [hg, hg1]
    rw [List.foldl_cons, List.foldl_cons, this]
    exact ih (g ∩ g1) (by simpa using hne)

/-- C2 counterexample: on branches a -> set 0, b -> set 1, c -> set 0 and the
empty struct (all three paths absent), Check returns the set of index 0,
not the empty set intersection the claim requires. -/
theorem c2_counterexample :
    ¬ (checkN (.fieldAbsence branchesC2) (.strukt []) =
       specFieldAbsenceCheck branchesC2 (.strukt [])) := by
  decide

/-- C2 (amended): if at least one branch path is absent in v and the
set intersection of the absent groups is nonempty, Check equals that
intersection; if no branch path is absent, Check equals Possible().
(When the intersection is empty, Check can return a superset, because
the intersect helper returns its second argument whenever the
accumulated set has become empty; see c2_counterexample.) -/
theorem c2_fieldabsence_check (bs : List (String × Finset ℕ)) (v : CueValue) :
    (absentGroups v bs ≠ [] → specAbsentIntersection (absentGroups v bs) ≠ ∅ →
      checkN (.fieldAbsence bs) v = specAbsentIntersection (absentGroups v bs)) ∧
    (absentGroups v bs = [] →
      checkN (.fieldAbsence bs) v = possibleN (.fieldAbsence bs)) := by
  constructor
  · intro hne hinter
    rw [checkN, absenceFold_true_eq]
    cases hg : absentGroups v bs with
    | nil => exact absurd hg hne
    | cons g gs =>
      rw [hg] at hinter
      simp only [specAbsentIntersection] at hinter ⊢
      simpa using foldl_intersect_eq_inter gs g hinter
  · intro hnil
    rw [checkN, absenceFold_true_eq, hnil]
    rfl

theorem c2_fieldabsence_check_witness :
    checkN (.fieldAbsence [("a", {0, 1}), ("b", {1, 2})]) (.strukt []) =
      specAbsentIntersection (absentGroups (.strukt []) [("a", {0, 1}), ("b", {1, 2})]) ∧
    checkN (.fieldAbsence [("a", {0, 1})]) (.strukt [("a", 4, .atom "1")]) =
      possibleN (.fieldAbsence [("a", {0, 1})]) :=
  ⟨(c2_fieldabsence_check [("a", {0, 1}), ("b", {1, 2})] (.strukt [])).1
      (by decide) (by decide),
   (c2_fieldabsence_check [("a", {0, 1})] (.strukt [("a", 4, .atom "1")])).2
      (by decide)⟩

/-! ## Claim C1: Check versus Possible -/

theorem foldl_intersect_subset {U : Finset ℕ} :
    ∀ (gs : List (Finset ℕ)) (g : Finset ℕ), g ⊆ U → (∀ s ∈ gs, s ⊆ U) →
      gs.foldl intersect g ⊆ U := by
  intro gs
  induction gs with
  | nil => intro g hg _; simpa using hg
  | cons g1 gs ih =>
    intro g hg hall
    rw [List.foldl_cons]
    refine ih (intersect g g1) ?_ (fun s hs => hall s (List.mem_cons_of_mem _ hs))
    exact (intersect_subset_union g g1).trans
      (Finset.union_subset hg (hall g1 (List.mem_cons_self _ _)))

theorem absentGroups_subset_unionGroups {v : CueValue}
    {bs : List (String × Finset ℕ)} {s : Finset ℕ}
    (hs : s ∈ absentGroups v bs) : s ⊆ unionGroups bs := by
  rw [absentGroups] at hs
  obtain ⟨e, he, rfl⟩ := List.mem_map.mp hs
  intro x hx
  exact mem_unionGroups.mpr ⟨e, List.mem_of_mem_filter he, hx⟩

mutual

theorem checkN_subset_possibleFullN : ∀ (t : DecisionNode) (v : CueValue),
    checkN t v ⊆ possibleFullN t
  | .leaf arms, v => by simp [checkN, possibleFullN]
  | .kindSwitch path bs, v => by
    rw [checkN, possibleFullN]
    exact checkKindBranches_subset bs (cueKind (lookupPath v path)) v
  | .fieldAbsence bs, v => by
    rw [checkN, possibleFullN]
    rw [absenceFold_true_eq]
    cases hg : absentGroups v bs with
    | nil => simp
    | cons g gs =>
      simp only
      refine foldl_intersect_subset gs g ?_ ?_
      · exact absentGroups_subset_unionGroups (by rw [hg]; exact List.mem_cons_self _ _)
      · intro s hs
        exact absentGroups_subset_unionGroups (by rw [hg]; exact List.mem_cons_of_mem _ hs)
  | .valueSwitch path bs dflt, v => by
    rw [checkN, possibleFullN]
    split
    · cases hcv : checkValueBranches bs (atomForValue (lookupPath v path)) v with
      | some r =>
        simp only [hcv]
        exact (checkValueBranches_subset bs _ v r hcv).trans Finset.subset_union_left
      | none =>
        simp only [hcv]
        exact (checkDefault_subset dflt v).trans Finset.subset_union_right
    · exact (checkDefault_subset dflt v).trans Finset.subset_union_right
  | .errorNode, v => by simp [checkN]
termination_by t _ => sizeOf t

theorem checkKindBranches_subset :
    ∀ (bs : List (Nat × DecisionNode)) (kk : Nat) (v : CueValue),
      checkKindBranches bs kk v ⊆ foldUnion (possibleFullListK bs)
  | [], _, _ => by simp [checkKindBranches]
  | (k, n) :: rest, kk, v => by
    rw [checkKindBranches]
    split
    · intro x hx
      exact mem_foldUnion.mpr
        ⟨possibleFullN n, by rw [possibleFullListK]; exact List.mem_cons_self _ _,
         checkN_subset_possibleFullN n v hx⟩
    · intro x hx
      obtain ⟨s, hs, hxs⟩ := mem_foldUnion.mp (checkKindBranches_subset rest kk v hx)
      exact mem_foldUnion.mpr
        ⟨s, by rw [possibleFullListK]; exact List.mem_cons_of_mem _ hs, hxs⟩
termination_by bs _ _ => sizeOf bs

theorem checkValueBranches_subset :
    ∀ (bs : List (Atom × DecisionNode)) (key : Atom) (v : CueValue) (r : Finset ℕ),
      checkValueBranches bs key v = some r → r ⊆ foldUnion (possibleFullListA bs)
  | [], _, _, _ => by simp [checkValueBranches]
  | (a, n) :: rest, key, v, r => by
    rw [checkValueBranches]
    split
    · intro hr
      obtain rfl : checkN n v = r := by injection hr
      intro x hx
      exact mem_foldUnion.mpr
        ⟨possibleFullN n, by rw [possibleFullListA]; exact List.mem_cons_self _ _,
         checkN_subset_possibleFullN n v hx⟩
    · intro hr x hx
      obtain ⟨s, hs, hxs⟩ :=
        mem_foldUnion.mp (checkValueBranches_subset rest key v r hr hx)
      exact mem_foldUnion.mpr
        ⟨s, by rw [possibleFullListA]; exact List.mem_cons_of_mem _ hs, hxs⟩
termination_by bs _ _ _ => sizeOf bs

theorem checkDefault_subset : ∀ (d : Option DecisionNode) (v : CueValue),
    checkDefault d v ⊆ possibleFullOpt d
  | none, _ => by simp [checkDefault]
  | some n, v => by
    rw [checkDefault, possibleFullOpt]
    exact checkN_subset_possibleFullN n v
termination_by d _ => sizeOf d

end

/-- C1 (amended): for every decision tree and every value v, Check(v)
is a subset of the default-inclusive possible set (possibleFullN: like
Possible, but also folding in the Default subtree of every
ValueSwitch).  The claim as stated, with the tree's own Possible(), is
false: ValueSwitchNode.Possible folds over Branches only, so a Check
that falls through to the Default can leave Possible(); see
c1_counterexample for a tree produced by Discriminate. -/
theorem c1_check_subset_possibleFull (t : DecisionNode) (v : CueValue) :
    checkN t v ⊆ possibleFullN t :=
  checkN_subset_possibleFullN t v

/-- C1 counterexample: Discriminate on arms3 (int, bool, null or
bytes, "foo", "bar") returns a ValueSwitch tree; checking the null
value falls through to the default kind switch and yields the arm set
of index 2, which is not a subset of the tree's Possible() (the union
of the "foo" and "bar" branches only). -/
theorem c1_counterexample :
    ((Discriminate 20 arms3 ⟨false⟩).toOption.map
      (fun p => decide (checkN p.1 (.atom "null") ⊆ possibleN p.1))) = some false := by
  decide

/-! ## Claim C5: matchN splitting in Disjunctions -/

mutual

theorem appendDisjunctions_eq_append :
    ∀ (dst : List CueValue) (v : CueValue),
      appendDisjunctions dst v = dst ++ appendDisjunctions [] v
  | dst, .disj args => by
    rw [appendDisjunctions, appendDisjunctions]
    exact appendDisjList_eq_append dst args
  | dst, .callMatchN n list => by
    rw [appendDisjunctions, appendDisjunctions]
    split
    · simp
    · exact appendDisjList_eq_append dst list
  | dst, .atom s => by simp [appendDisjunctions]
  | dst, .typ k => by simp [appendDisjunctions]
  | dst, .strukt fs => by simp [appendDisjunctions]
  | dst, .bottom => by simp [appendDisjunctions]
termination_by _ v => sizeOf v

theorem appendDisjList_eq_append :
    ∀ (dst : List CueValue) (l : List CueValue),
      appendDisjList dst l = dst ++ appendDisjList [] l
  | dst, [] => by simp [appendDisjList]
  | dst, v :: vs => by
    rw [appendDisjList, appendDisjList]
    rw [appendDisjList_eq_append (appendDisjunctions dst v) vs,
        appendDisjList_eq_append (appendDisjunctions [] v) vs,
        appendDisjunctions_eq_append dst v]
    simp
termination_by _ l => sizeOf l

end

theorem appendDisjList_flatMap :
    ∀ (l : List CueValue), appendDisjList [] l = l.flatMap Disjunctions := by
  intro l
  induction l with
  | nil => simp [appendDisjList]
  | cons v vs ih =>
    rw [appendDisjList, appendDisjList_eq_append, ih, List.flatMap_cons]
    rfl

/-- C5: for a value whose top-level form is matchN(k, list),
Disjunctions splits each list element into separate arms (recursively)
exactly when k is neither 0 nor the list length; when k is 0 or the
list length, the whole matchN call is kept as a single arm. -/
theorem c5_matchN_split (n : Int) (list : List CueValue) :
    (¬(n = 0 ∨ n = (list.length : Int)) →
      Disjunctions (.callMatchN n list) = list.flatMap Disjunctions) ∧
    ((n = 0 ∨ n = (list.length : Int)) →
      Disjunctions (.callMatchN n list) = [.callMatchN n list]) := by
  constructor
  · intro h
    rw [Disjunctions, appendDisjunctions, if_neg h]
    exact appendDisjList_flatMap list
  · intro h
    rw [Disjunctions, appendDisjunctions, if_pos h]
    rfl

theorem c5_matchN_split_witness :
    Disjunctions (.callMatchN 1 [.atom "1", .disj [.atom "2", .atom "3"]]) =
      [.atom "1", .atom "2", .atom "3"] ∧
    Disjunctions (.callMatchN 0 [.atom "1", .atom "2"]) =
      [.callMatchN 0 [.atom "1", .atom "2"]] ∧
    Disjunctions (.callMatchN 2 [.atom "1", .atom "2"]) =
      [.callMatchN 2 [.atom "1", .atom "2"]] := by
  refine ⟨?_, ?_, ?_⟩
  · rw [(c5_matchN_split 1 [.atom "1", .disj [.atom "2", .atom "3"]]).1 (by decide)]
    rfl
  · exact (c5_matchN_split 0 [.atom "1", .atom "2"]).2 (Or.inl rfl)
  · exact (c5_matchN_split 2 [.atom "1", .atom "2"]).2 (Or.inr rfl)

/-! ## Claim C3: perfect trees select at most one arm -/

/-- What a multi-arm leaf must satisfy to be perfect under merging:
all its arms have the same atom kind. -/
def sameAtomKindSet (s : Finset ℕ) (arms : List CueValue) : Prop :=
  ∀ i ∈ s, ∀ j ∈ s,
    isAtomKind (cueKind (arms.getD i .bottom)) = true ∧
    cueKind (arms.getD i .bottom) = cueKind (arms.getD j .bottom)

theorem allSameAtomKind_spec {s : Finset ℕ} {arms : List CueValue}
    (h : allSameAtomKind s arms = true) : sameAtomKindSet s arms := by
  rw [allSameAtomKind, Bool.and_eq_true, decide_eq_true_eq, decide_eq_true_eq] at h
  obtain ⟨h1, h2⟩ := h
  intro i hi j hj
  refine ⟨h1 i hi, ?_⟩
  exact Finset.card_le_one.mp h2 _ (Finset.mem_image_of_mem _ hi) _
    (Finset.mem_image_of_mem _ hj)

mutual

theorem perfect_checkN :
    ∀ (t : DecisionNode) (noAtoms : Bool) (arms : List CueValue),
      isPerfect t noAtoms arms = true → ∀ v : CueValue,
        (checkN t v).card ≤ 1 ∨
        (noAtoms = true ∧ sameAtomKindSet (checkN t v) arms)
  | .leaf a, noAtoms, arms => by
    intro h v
    rw [isPerfect] at h
    rw [checkN]
    by_cases hcard : a.card ≤ 1
    · exact Or.inl hcard
    · rw [if_neg hcard] at h
      cases noAtoms with
      | false => exact absurd h (by simp)
      | true =>
        simp only [Bool.not_true, Bool.false_eq_true, if_false] at h
        exact Or.inr ⟨rfl, allSameAtomKind_spec h⟩
  | .kindSwitch path bs, noAtoms, arms => by
    intro h v
    rw [isPerfect] at h
    rw [checkN]
    exact perfect_checkKindBranches bs noAtoms arms h (cueKind (lookupPath v path)) v
  | .fieldAbsence bs, noAtoms, arms => by
    intro h
    rw [isPerfect] at h
    exact absurd h (by simp)
  | .valueSwitch path bs dflt, noAtoms, arms => by
    intro h v
    rw [isPerfect, Bool.and_eq_true] at h
    rw [checkN]
    split
    · cases hcv : checkValueBranches bs (atomForValue (lookupPath v path)) v with
      | some r =>
        simp only [hcv]
        exact perfect_checkValueBranches bs noAtoms arms h.1 _ v r hcv
      | none =>
        simp only [hcv]
        exact perfect_checkDefault dflt noAtoms arms h.2 v
    · exact perfect_checkDefault dflt noAtoms arms h.2 v
  | .errorNode, noAtoms, arms => by
    intro _ v
    rw [checkN]
    exact Or.inl (by simp)
termination_by t _ _ => sizeOf t

theorem perfect_checkKindBranches :
    ∀ (bs : List (Nat × DecisionNode)) (noAtoms : Bool) (arms : List CueValue),
      isPerfectListK bs noAtoms arms = true → ∀ (kk : Nat) (v : CueValue),
        (checkKindBranches bs kk v).card ≤ 1 ∨
        (noAtoms = true ∧ sameAtomKindSet (checkKindBranches bs kk v) arms)
  | [], _, _ => by
    intro _ kk v
    rw [checkKindBranches]
    exact Or.inl (by simp)
  | (k, n) :: rest, noAtoms, arms => by
    intro h kk v
    rw [isPerfectListK, Bool.and_eq_true] at h
    rw [checkKindBranches]
    split
    · exact perfect_checkN n noAtoms arms h.1 v
    · exact perfect_checkKindBranches rest noAtoms arms h.2 kk v
termination_by bs _ _ => sizeOf bs

theorem perfect_checkValueBranches :
    ∀ (bs : List (Atom × DecisionNode)) (noAtoms : Bool) (arms : List CueValue),
      isPerfectListA bs noAtoms arms = true →
      ∀ (key : Atom) (v : CueValue) (r : Finset ℕ),
        checkValueBranches bs key v = some r →
        r.card ≤ 1 ∨ (noAtoms = true ∧ sameAtomKindSet r arms)
  | [], _, _ => by
    intro _ key v r hr
    rw [checkValueBranches] at hr
    exact absurd hr (by simp)
  | (a, n) :: rest, noAtoms, arms => by
    intro h key v r hr
    rw [isPerfectListA, Bool.and_eq_true] at h
    rw [checkValueBranches] at hr
    split at hr
    · obtain rfl : checkN n v = r := by injection hr
      exact perfect_checkN n noAtoms arms h.1 v
    · exact perfect_checkValueBranches rest noAtoms arms h.2 key v r hr
termination_by bs _ _ => sizeOf bs

theorem perfect_checkDefault :
    ∀ (d : Option DecisionNode) (noAtoms : Bool) (arms : List CueValue),
      isPerfectOpt d noAtoms arms = true → ∀ v : CueValue,
        (checkDefault d v).card ≤ 1 ∨
        (noAtoms = true ∧ sameAtomKindSet (checkDefault d v) arms)
  | none, _, _ => by
    intro _ v
    rw [checkDefault]
    exact Or.inl (by simp)
  | some n, noAtoms, arms => by
    intro h v
    rw [isPerfectOpt] at h
    rw [checkDefault]
    exact perfect_checkN n noAtoms arms h v
termination_by d _ _ => sizeOf d

end

/-- Whatever Discriminate reports as the perfection flag is isPerfect
of the returned tree against the original arms, and the tree is a
discriminate result. -/
theorem ok_pair_eq {α β : Type} {x : α × β} {t : α} {p : β}
    (h : (Except.ok x : Except String (α × β)) = .ok (t, p)) : t = x.1 ∧ p = x.2 := by
  injection h with h2
  exact ⟨(congrArg Prod.fst h2).symm, (congrArg Prod.snd h2).symm⟩

theorem Discriminate_ok_shape {fuel : Nat} {arms : List CueValue} {opts : DOptions}
    {t : DecisionNode} {p : Bool} (h : Discriminate fuel arms opts = .ok (t, p)) :
    p = isPerfect t opts.mergeCompatible arms ∧
    ∃ (rev : Option (Nat → Finset ℕ)) (arms2 : List CueValue) (s : Finset ℕ),
      t = discriminate rev fuel arms2 s := by
  rcases opts with ⟨mc⟩
  cases mc
  · simp only [Discriminate, bind, Except.bind, pure, Except.pure] at h
    rw [if_neg (by simp : ¬(false = true))] at h
    split at h
    · split at h
      · exact Except.noConfusion h
      · obtain ⟨rfl, rfl⟩ := ok_pair_eq h
        exact ⟨rfl, none, arms, _, rfl⟩
    · obtain ⟨rfl, rfl⟩ := ok_pair_eq h
      exact ⟨rfl, none, arms, _, rfl⟩
  · simp only [Discriminate, bind, Except.bind, pure, Except.pure] at h
    rw [if_pos trivial] at h
    split at h
    · exact Except.noConfusion h
    · split at h
      · split at h
        · exact Except.noConfusion h
        · obtain ⟨rfl, rfl⟩ := ok_pair_eq h
          exact ⟨rfl, _, _, _, rfl⟩
      · obtain ⟨rfl, rfl⟩ := ok_pair_eq h
        exact ⟨rfl, _, _, _, rfl⟩

/-- C3: when Discriminate reports is_perfect = true with compatibility
merging disabled, Check returns a set of size at most one for every
value; with merging enabled, any Check result of size greater than one
consists only of arms that all have the same atom kind (per the
original arms list). -/
theorem c3_perfect_discrimination (fuel : Nat) (arms : List CueValue)
    (opts : DOptions) (t : DecisionNode)
    (h : Discriminate fuel arms opts = .ok (t, true)) :
    (opts.mergeCompatible = false → ∀ v : CueValue, (checkN t v).card ≤ 1) ∧
    (opts.mergeCompatible = true → ∀ v : CueValue, 1 < (checkN t v).card →
      sameAtomKindSet (checkN t v) arms) := by
  have hp : isPerfect t opts.mergeCompatible arms = true :=
    (Discriminate_ok_shape h).1.symm
  constructor
  · intro hmc v
    rw [hmc] at hp
    rcases perfect_checkN t false arms hp v with hle | ⟨hfalse, _⟩
    · exact hle
    · exact absurd hfalse (by simp)
  · intro hmc v hcard
    rw [hmc] at hp
    rcases perfect_checkN t true arms hp v with hle | ⟨_, hsame⟩
    · omega
    · exact hsame

/-- The scenario-1 run: Discriminate on string, int without merging. -/
def resKinds : Except String (DecisionNode × Bool) := Discriminate 20 armsKinds ⟨false⟩

def treeKinds : DecisionNode :=
  match resKinds with
  | .ok q => q.1
  | .error _ => .errorNode

/-- The merged-atoms run: Discriminate on "a", "b" with merging. -/
def resAtoms : Except String (DecisionNode × Bool) := Discriminate 20 armsAtoms ⟨true⟩

def treeAtoms : DecisionNode :=
  match resAtoms with
  | .ok q => q.1
  | .error _ => .errorNode

theorem c3_perfect_discrimination_witness :
    (checkN treeKinds (.atom "\"x\"")).card ≤ 1 ∧
    (isAtomKind (cueKind (armsAtoms.getD 0 .bottom)) = true ∧
     cueKind (armsAtoms.getD 0 .bottom) = cueKind (armsAtoms.getD 1 .bottom)) :=
  ⟨(c3_perfect_discrimination 20 armsKinds ⟨false⟩ treeKinds rfl).1 rfl _,
   (c3_perfect_discrimination 20 armsAtoms ⟨true⟩ treeAtoms rfl).2 rfl (.atom "5")
     (by decide) 0 (by decide) 1 (by decide)⟩

/-! ## Claim C6: ValueSwitch branch invariants -/

/-- The C6 invariant at a single ValueSwitch node: when its default is
a KindSwitch, a null default branch excludes the null atom from the
branches, and true and false branches together exclude a bool default
branch. -/
def vsCondition (bs : List (Atom × DecisionNode)) (dflt : Option DecisionNode) : Bool :=
  match dflt with
  | some (.kindSwitch _ ks) =>
    (!(hasKey ks nullKind) || !(hasKey bs "null")) &&
    (!(hasKey bs "true" && hasKey bs "false") || !(hasKey ks boolKind))
  | _ => true

mutual

/-- Every ValueSwitch node of the tree satisfies vsCondition. -/
def goodVS : DecisionNode → Bool
  | .leaf _ => true
  | .kindSwitch _ bs => goodVSListK bs
  | .fieldAbsence _ => true
  | .valueSwitch _ bs dflt => vsCondition bs dflt && goodVSListA bs && goodVSOpt dflt
  | .errorNode => true

def goodVSOpt : Option DecisionNode → Bool
  | none => true
  | some n => goodVS n

def goodVSListK : List (Nat × DecisionNode) → Bool
  | [] => true
  | (_, n) :: rest => goodVS n && goodVSListK rest

def goodVSListA : List (Atom × DecisionNode) → Bool
  | [] => true
  | (_, n) :: rest => goodVS n && goodVSListA rest

end

theorem hasKey_eraseKey_self {κ α : Type} [DecidableEq κ] (l : List (κ × α)) (k : κ) :
    hasKey (eraseKey l k) k = false := by
  rw [hasKey, eraseKey]
  rw [List.any_eq_false]
  intro e he
  have := List.of_mem_filter he
  simp only [decide_eq_true_eq] at this ⊢
  exact this

theorem hasKey_eraseKey_imp {κ α : Type} [DecidableEq κ] {l : List (κ × α)} {k k' : κ}
    (h : hasKey (eraseKey l k') k = true) : hasKey l k = true := by
  rw [hasKey, List.any_eq_true] at h ⊢
  obtain ⟨e, he, hk⟩ := h
  exact ⟨e, List.mem_of_mem_filter he, hk⟩

theorem post_cond (byValue0 : List (Atom × Finset ℕ)) (byKind1 : List (Nat × Finset ℕ)) :
    (hasKey (postByKind byValue0 byKind1) nullKind = true →
      hasKey (postByValue byValue0 byKind1) "null" = false) ∧
    (hasKey (postByValue byValue0 byKind1) "true" = true →
      hasKey (postByValue byValue0 byKind1) "false" = true →
      hasKey (postByKind byValue0 byKind1) boolKind = false) := by
  constructor
  · intro hn
    have hk1 : hasKey byKind1 nullKind = true := by
      rw [postByKind] at hn
      split at hn
      · exact hasKey_eraseKey_imp hn
      · exact hn
    rw [postByValue, if_pos hk1]
    exact hasKey_eraseKey_self byValue0 "null"
  · intro ht hf
    rw [postByKind, if_pos (by rw [ht, hf]; rfl)]
    exact hasKey_eraseKey_self byKind1 boolKind

/-- Both removal conditions hold of what discriminators returns. -/
theorem discriminators_cond (arms0 : List CueValue) (selected needDiscrim : Finset ℕ) :
    (hasKey (discriminators arms0 selected needDiscrim).2.1 nullKind = true →
      hasKey (discriminators arms0 selected needDiscrim).1 "null" = false) ∧
    (hasKey (discriminators arms0 selected needDiscrim).1 "true" = true →
      hasKey (discriminators arms0 selected needDiscrim).1 "false" = true →
      hasKey (discriminators arms0 selected needDiscrim).2.1 boolKind = false) := by
  rw [discriminators]
  split
  · constructor
    · intro _; rfl
    · intro ht; exact absurd ht (by simp [hasKey])
  · exact post_cond _ _

theorem hasKey_map_branch {κ α : Type} [DecidableEq κ] (l : List (κ × α))
    (f : κ × α → DecisionNode) (k : κ) :
    hasKey (l.map (fun e => (e.1, f e))) k = hasKey l k := by
  rw [hasKey, hasKey]
  induction l with
  | nil => rfl
  | cons e l ih =>
    rw [List.map_cons, List.any_cons, List.any_cons, ih]

theorem goodVSListK_map (bs : List (Nat × Finset ℕ)) (f : Nat × Finset ℕ → DecisionNode)
    (hf : ∀ e ∈ bs, goodVS (f e) = true) :
    goodVSListK (bs.map (fun e => (e.1, f e))) = true := by
  induction bs with
  | nil => rfl
  | cons e bs ih =>
    rw [List.map_cons, goodVSListK, Bool.and_eq_true]
    exact ⟨hf e (List.mem_cons_self _ _),
      ih (fun e' he' => hf e' (List.mem_cons_of_mem _ he'))⟩

theorem goodVSListA_map (bs : List (Atom × Finset ℕ)) (f : Atom × Finset ℕ → DecisionNode)
    (hf : ∀ e ∈ bs, goodVS (f e) = true) :
    goodVSListA (bs.map (fun e => (e.1, f e))) = true := by
  induction bs with
  | nil => rfl
  | cons e bs ih =>
    rw [List.map_cons, goodVSListA, Bool.and_eq_true]
    exact ⟨hf e (List.mem_cons_self _ _),
      ih (fun e' he' => hf e' (List.mem_cons_of_mem _ he'))⟩

theorem goodVS_newLeaf (rev : Option (Nat → Finset ℕ)) (s : Finset ℕ) :
    goodVS (newLeaf rev s) = true := rfl

theorem goodVS_kindBranch (rev : Option (Nat → Finset ℕ))
    (recur : List CueValue → Finset ℕ → DecisionNode)
    (values : List CueValue) (selected : Finset ℕ) (e : Nat × Finset ℕ)
    (hrec : ∀ a s, goodVS (recur a s) = true) :
    goodVS (kindBranch rev recur values selected e) = true := by
  rw [kindBranch]
  split
  · exact hrec _ _
  · split
    · exact goodVS_newLeaf rev selected
    · exact hrec _ _

theorem goodVS_valueBranch (rev : Option (Nat → Finset ℕ))
    (recur : List CueValue → Finset ℕ → DecisionNode)
    (values : List CueValue) (selected : Finset ℕ) (e : Atom × Finset ℕ)
    (hrec : ∀ a s, goodVS (recur a s) = true) :
    goodVS (valueBranch rev recur values selected e) = true := by
  rw [valueBranch]
  split
  · exact goodVS_newLeaf rev selected
  · exact hrec _ _

theorem goodVS_buildKindSwitch (rev : Option (Nat → Finset ℕ))
    (recur : List CueValue → Finset ℕ → DecisionNode)
    (path : String) (values : List CueValue) (selected : Finset ℕ)
    (byKind : List (Nat × Finset ℕ))
    (hrec : ∀ a s, goodVS (recur a s) = true) :
    goodVS (buildKindSwitch rev recur path values selected byKind) = true := by
  rw [buildKindSwitch]
  split
  · rfl
  · rw [goodVS]
    exact goodVSListK_map byKind _ (fun e _ => goodVS_kindBranch rev recur values selected e hrec)

theorem vsCondition_buildKindSwitch (rev : Option (Nat → Finset ℕ))
    (recur : List CueValue → Finset ℕ → DecisionNode)
    (path : String) (values : List CueValue) (selected : Finset ℕ)
    (byValue : List (Atom × Finset ℕ)) (byKind : List (Nat × Finset ℕ))
    (f : Atom × Finset ℕ → DecisionNode)
    (hc1 : hasKey byKind nullKind = true → hasKey byValue "null" = false)
    (hc2 : hasKey byValue "true" = true → hasKey byValue "false" = true →
      hasKey byKind boolKind = false) :
    vsCondition (byValue.map (fun e => (e.1, f e)))
      (some (buildKindSwitch rev recur path values selected byKind)) = true := by
  rw [buildKindSwitch]
  split
  · rfl
  · rw [vsCondition]
    simp only [hasKey_map_branch]
    rw [Bool.and_eq_true, Bool.or_eq_true, Bool.or_eq_true]
    constructor
    · by_cases hn : hasKey byKind nullKind = true
      · right
        simp [hc1 hn]
      · left
        rw [Bool.not_eq_true] at hn
        simp [hn]
    · by_cases htf : hasKey byValue "true" = true ∧ hasKey byValue "false" = true
      · right
        simp [hc2 htf.1 htf.2]
      · left
        rcases not_and_or.mp htf with hh | hh
        · rw [Bool.not_eq_true] at hh
          simp [hh]
        · rw [Bool.not_eq_true] at hh
          simp [hh]

theorem goodVS_buildDecision (rev : Option (Nat → Finset ℕ))
    (recur : List CueValue → Finset ℕ → DecisionNode)
    (path : String) (values : List CueValue) (selected : Finset ℕ)
    (byValue : List (Atom × Finset ℕ)) (byKind : List (Nat × Finset ℕ))
    (hrec : ∀ a s, goodVS (recur a s) = true)
    (hc1 : hasKey byKind nullKind = true → hasKey byValue "null" = false)
    (hc2 : hasKey byValue "true" = true → hasKey byValue "false" = true →
      hasKey byKind boolKind = false) :
    goodVS (buildDecision rev recur path values selected byValue byKind) = true := by
  rw [buildDecision]
  split
  · exact goodVS_buildKindSwitch rev recur path values selected byKind hrec
  · rw [goodVS, Bool.and_eq_true, Bool.and_eq_true]
    refine ⟨⟨?_, ?_⟩, ?_⟩
    · exact vsCondition_buildKindSwitch rev recur path values selected byValue byKind _ hc1 hc2
    · exact goodVSListA_map byValue _
        (fun e _ => goodVS_valueBranch rev recur values selected e hrec)
    · rw [goodVSOpt]
      exact goodVS_buildKindSwitch rev recur path values selected byKind hrec

theorem goodVS_discriminate (rev : Option (Nat → Finset ℕ)) :
    ∀ (fuel : Nat) (arms : List CueValue) (selected : Finset ℕ),
      goodVS (discriminate rev fuel arms selected) = true := by
  intro fuel
  induction fuel with
  | zero => intro arms selected; rfl
  | succ fuel ih =>
    intro arms selected
    rw [discriminate]
    simp only []
    split
    · exact goodVS_newLeaf rev selected
    · split <;>
      · split
        · exact goodVS_buildDecision _ _ _ _ _ _ _ (fun a s => ih a s)
            (discriminators_cond _ _ _).1 (discriminators_cond _ _ _).2
        · split
          · exact goodVS_buildDecision _ _ _ _ _ _ _ (fun a s => ih a s)
              (discriminators_cond _ _ _).1 (discriminators_cond _ _ _).2
          · split
            · exact goodVS_newLeaf rev selected
            · rfl

/-- C6: for every tree returned by Discriminate, every ValueSwitch
node satisfies the two invariants: its branches never contain the null
atom when its default KindSwitch has a null branch, and its default
KindSwitch never has a bool branch when its branches contain both the
true and the false atoms (goodVS). -/
theorem c6_valueswitch_invariants (fuel : Nat) (arms : List CueValue)
    (opts : DOptions) (t : DecisionNode) (p : Bool)
    (h : Discriminate fuel arms opts = .ok (t, p)) : goodVS t = true := by
  obtain ⟨rev, arms2, s, rfl⟩ := (Discriminate_ok_shape h).2
  exact goodVS_discriminate rev fuel arms2 s

/-- The scenario-3 run used by the C6 witness. -/
def resThree : Except String (DecisionNode × Bool) := Discriminate 20 arms3 ⟨false⟩

def treeThree : DecisionNode :=
  match resThree with
  | .ok q => q.1
  | .error _ => .errorNode

theorem c6_valueswitch_invariants_witness : goodVS treeThree = true :=
  c6_valueswitch_invariants 20 arms3 ⟨false⟩ treeThree true rfl

/-! ## Claim C8: field walker ordering -/

/-- The breadth-first level of a yielded path: the number of dot-separated
selectors. -/
def pathDepth (p : String) : Nat := (splitOnDot p).length

/-- The claim's formalization: within each breadth-first level (equal
path depth), every field with an existing non-struct value is yielded
strictly before every field whose existing values are all structs. -/
def specNonStructFirstPerLevel (stream : List (String × List CueValue)) : Prop :=
  ∀ (i j : Fin stream.length),
    pathDepth (stream.get i).1 = pathDepth (stream.get j).1 →
    entryHasNonStruct (stream.get i) = true →
    entryHasNonStruct (stream.get j) = false →
    (i : ℕ) < (j : ℕ)

/-- Two struct fields at the root, one containing a struct-only child
and the other a non-struct child: the walker processes the parents one
at a time, so at level two the struct-only field a.c is yielded before
the non-struct field b.e. -/
def armsLevels : List CueValue :=
  [.strukt
    [("a", requiredLabel, .strukt
      [("c", requiredLabel, .strukt [("d", requiredLabel, .typ intKind)])]),
     ("b", requiredLabel, .strukt [("e", requiredLabel, .typ intKind)])]]

/-- C8 counterexample: on armsLevels the stream is a, b, a.c, b.e,
a.c.d; the struct-only field a.c precedes the non-struct field b.e at
the same level, refuting the per-level ordering claim. -/
theorem c8_counterexample :
    ¬ specNonStructFirstPerLevel (allFields armsLevels {0} requiredLabel) := by
  unfold specNonStructFirstPerLevel
  decide

/-- C8 (amended): within the block of fields yielded for a single
dequeued parent (fieldBlock; the allFields stream is the concatenation
of these blocks in queue order, see allFieldsGo), every field that has
an existing non-struct value in some selected arm is yielded strictly
before every field whose existing values are all structs.  Across
different parents of the same breadth-first level the ordering does
not hold (c8_counterexample). -/
theorem append_filter_order {α : Type} (p : α → Bool) (A B : List α)
    (hA : ∀ x ∈ A, p x = true) (hB : ∀ x ∈ B, p x = false) :
    ∀ (i j : ℕ) (hi : i < (A ++ B).length) (hj : j < (A ++ B).length),
      p ((A ++ B).get ⟨i, hi⟩) = true → p ((A ++ B).get ⟨j, hj⟩) = false →
      i < j := by
  intro i j hi hj hpi hpj
  have hiA : i < A.length := by
    by_contra hge
    push_neg at hge
    have hmem : (A ++ B).get ⟨i, hi⟩ ∈ B := by
      rw [List.get_eq_getElem, List.getElem_append_right hge]
      exact List.getElem_mem _
    rw [hB _ hmem] at hpi
    exact Bool.noConfusion hpi
  have hjB : A.length ≤ j := by
    by_contra hlt
    push_neg at hlt
    have hmem : (A ++ B).get ⟨j, hj⟩ ∈ A := by
      rw [List.get_eq_getElem, List.getElem_append_left hlt]
      exact List.getElem_mem _
    rw [hA _ hmem] at hpj
    exact Bool.noConfusion hpj
  omega

theorem c8_block_order (path : String) (values : List CueValue) (selected : Finset ℕ)
    (labelTypes : Nat) :
    ∀ (i j : ℕ) (hi : i < (fieldBlock path values selected labelTypes).1.length)
      (hj : j < (fieldBlock path values selected labelTypes).1.length),
      entryHasNonStruct ((fieldBlock path values selected labelTypes).1.get ⟨i, hi⟩) = true →
      entryHasNonStruct ((fieldBlock path values selected labelTypes).1.get ⟨j, hj⟩) = false →
      i < j := by
  have hmemA : ∀ x ∈ ((collectEntries values selected labelTypes).filter
      entryHasNonStruct).map (fun e => (pathConcat path e.1, e.2)),
      entryHasNonStruct x = true := by
    intro x hx
    obtain ⟨e, he, rfl⟩ := List.mem_map.mp hx
    have h2 : entryHasNonStruct e = true := List.of_mem_filter he
    exact h2
  have hmemB : ∀ x ∈ ((collectEntries values selected labelTypes).filter
      (fun e => !entryHasNonStruct e)).map (fun e => (pathConcat path e.1, e.2)),
      entryHasNonStruct x = false := by
    intro x hx
    obtain ⟨e, he, rfl⟩ := List.mem_map.mp hx
    have h2 : entryHasNonStruct e = false := by simpa using List.of_mem_filter he
    exact h2
  exact append_filter_order entryHasNonStruct _ _ hmemA hmemB

/-- A parent with one non-struct field and one struct field, for the
C8 witness. -/
def armsSiblings : List CueValue :=
  [.strukt
    [("a", requiredLabel, .typ intKind),
     ("b", requiredLabel, .strukt [("e", requiredLabel, .typ intKind)])]]

theorem c8_block_order_witness : (0 : ℕ) < (1 : ℕ) :=
  c8_block_order "." armsSiblings {0} requiredLabel 0 1 (by decide) (by decide)
    (by decide) (by decide)

/-! ## Claim C9: valueSet absorption -/

/-- Normal form of a valueSet: no const atom has a kind bit already
present in types. -/
def normalFormVS (s : valueSet) : Prop :=
  ∀ c ∈ s.consts, s.types &&& atomKind c = 0

theorem valueSet.ext {a b : valueSet} (h1 : a.types = b.types)
    (h2 : a.consts = b.consts) : a = b := by
  cases a
  cases b
  simp only at h1 h2
  rw [h1, h2]

theorem land_lor_distrib_left (a b c : Nat) :
    a &&& (b ||| c) = (a &&& b) ||| (a &&& c) := by
  apply Nat.eq_of_testBit_eq
  intro i
  simp [Nat.testBit_land, Nat.testBit_lor, Bool.and_or_distrib_left]

theorem lor_eq_zero_parts {a b : Nat} (h : a ||| b = 0) : a = 0 ∧ b = 0 := by
  constructor <;>
  · apply Nat.eq_of_testBit_eq
    intro i
    have h2 := congrArg (fun n => Nat.testBit n i) h
    simp only [Nat.testBit_lor, Nat.zero_testBit, Bool.or_eq_false_iff] at h2
    simp [h2.1, h2.2, Nat.zero_testBit]

theorem lor_land_self (a b : Nat) : (a ||| b) &&& a = a := by
  apply Nat.eq_of_testBit_eq
  intro i
  rw [Nat.testBit_land, Nat.testBit_lor]
  cases Nat.testBit a i <;> cases Nat.testBit b i <;> rfl

theorem land_lor_eq_zero_iff (k a b : Nat) :
    k &&& (a ||| b) = 0 ↔ k &&& a = 0 ∧ k &&& b = 0 := by
  rw [land_lor_distrib_left]
  constructor
  · exact lor_eq_zero_parts
  · rintro ⟨h1, h2⟩
    rw [h1, h2]
    rfl

theorem lor_land_eq_zero_iff (a b k : Nat) :
    (a ||| b) &&& k = 0 ↔ a &&& k = 0 ∧ b &&& k = 0 := by
  constructor
  · intro h
    have h2 := (land_lor_eq_zero_iff k a b).mp (by rw [Nat.land_comm]; exact h)
    exact ⟨by rw [Nat.land_comm]; exact h2.1, by rw [Nat.land_comm]; exact h2.2⟩
  · rintro ⟨h1, h2⟩
    rw [Nat.land_comm, land_lor_eq_zero_iff]
    exact ⟨by rw [Nat.land_comm]; exact h1, by rw [Nat.land_comm]; exact h2⟩

/-- C9: for value sets x, y in normal form, (x union y) intersected
with x is x again. -/
theorem c9_union_intersect_absorb (x y : valueSet)
    (hx : normalFormVS x) (hy : normalFormVS y) :
    (x.union y).intersect x = x := by
  rcases x with ⟨t0, c0⟩
  rcases y with ⟨t1, c1⟩
  refine valueSet.ext ?_ ?_
  · simp only [valueSet.union, valueSet.intersect, valueSet.normalize]
    exact lor_land_self t0 t1
  · simp only [valueSet.union, valueSet.intersect, valueSet.normalize]
    ext c
    simp only [Finset.mem_filter, Finset.mem_union, Finset.mem_inter]
    constructor
    · rintro ⟨(hA | hB) | hC, hnorm⟩
      · exact hA.1
      · exact absurd ((lor_land_eq_zero_iff t0 t1 (atomKind c)).mp hB.1.2).1 hB.2
      · exact hC.2
    · intro hc
      have hx0 : t0 &&& atomKind c = 0 := hx c hc
      refine ⟨?_, by rw [lor_land_self]; exact hx0⟩
      by_cases h1 : t1 &&& atomKind c = 0
      · right
        exact ⟨⟨Or.inl hc, (lor_land_eq_zero_iff t0 t1 (atomKind c)).mpr ⟨hx0, h1⟩⟩, hc⟩
      · left
        left
        exact ⟨hc, fun hT => h1 ((lor_land_eq_zero_iff t0 t1 (atomKind c)).mp hT).2⟩

theorem c9_union_intersect_absorb_witness :
    (valueSet.intersect
      (valueSet.union ⟨intKind, {"\"s\""}⟩ ⟨stringKind, ∅⟩)
      ⟨intKind, {"\"s\""}⟩) = ⟨intKind, {"\"s\""}⟩ :=
  c9_union_intersect_absorb ⟨intKind, {"\"s\""}⟩ ⟨stringKind, ∅⟩
    (by intro c hc; fin_cases hc; decide) (by intro c hc; simp at hc)

end Cuediscrim
